import Mathlib

/-!
Verification of the games-island monitor (`monitor.py`).

The Python source is shallowly embedded in Lean:
* Python `str` values are modelled as `List Char`;
* the Python standard-library pieces the program uses (`str.strip`,
  `str.split`, substring tests, `urllib.parse.urlsplit` / `urljoin`,
  `json` values, `set`) are modelled by executable Lean functions that
  follow the CPython behaviour on the inputs the program manipulates;
* the orchestration logic of `main` is modelled as a pure function from
  the run's external conditions (fetch success, extracted set, previous
  state, save/email success, the first-run notification flag) to the
  process outcome together with the ordered trace of side effects.
-/

namespace Monitor

/-! ## Character-list primitives (Python `str` operations) -/

/-- `startsW l pre` models Python `l.startswith(pre)`. -/
def startsW : List Char → List Char → Bool
  | _, [] => true
  | [], _ :: _ => false
  | c :: cs, d :: ds => c == d && startsW cs ds

/-- `containsSub l pat` models the Python substring test `pat in l`. -/
def containsSub : List Char → List Char → Bool
  | [], pat => startsW [] pat
  | c :: cs, pat => startsW (c :: cs) pat || containsSub cs pat

/-- Whitespace characters stripped by Python `str.strip()` (ASCII range). -/
def isWs (c : Char) : Bool :=
  c == ' ' || c == '\t' || c == '\n' || c == '\r' || c == '\x0b' || c == '\x0c'

/-- ASCII lowercasing, modelling `str.lower()` / `re.IGNORECASE` on the
ASCII patterns the program uses. -/
def lowerL (l : List Char) : List Char := l.map Char.toLower

/-- Remove the maximal suffix of characters satisfying `p`
(the right half of Python `str.strip(chars)`). -/
def rdropP (p : Char → Bool) : List Char → List Char
  | [] => []
  | c :: cs =>
    match rdropP p cs, p c with
    | [], true => []
    | r, _ => c :: r

/-- Python `s.split("/")`: split on `'/'`, keeping empty pieces. -/
def splitSl : List Char → List (List Char)
  | [] => [[]]
  | c :: cs =>
    match splitSl cs, c == '/' with
    | r, true => [] :: r
    | [], false => [[c]]
    | s :: rest, false => (c :: s) :: rest

/-- Python `path.strip("/")`. -/
def stripSl (l : List Char) : List Char :=
  rdropP (fun c => c == '/') (l.dropWhile (fun c => c == '/'))

/-- Python `s.strip()` (whitespace strip). -/
def stripWsL (l : List Char) : List Char :=
  rdropP isWs (l.dropWhile isWs)

/-- The non-empty `'/'`-separated segments of a path (used to state the
spec's "exactly one non-empty segment" wording). -/
def segsOf (p : List Char) : List (List Char) :=
  (splitSl p).filter (fun s => !s.isEmpty)

/-! ## The product classifier (`monitor.py` lines 50-63) -/

/-- The reject markers of `looks_like_product` (line 57), matched
case-sensitively as substrings. -/
def rejectMarkers : List (List Char) :=
  ["/c/".toList, "/en/c/".toList, "/m/".toList, "/Home".toList,
   "/search".toList, "/?".toList]

/-- `any(seg in path for seg in [...])` at line 57. -/
def hasRejectMarker (path : List Char) : Bool :=
  rejectMarkers.any (fun m => containsSub path m)

/-- The three `PRODUCT_PATTERNS` regexes (lines 50-54).  Each pattern is
a plain alternation-free-or-simple-alternation of literals searched
case-insensitively, so `re.search` is substring search on the lowercased
path. -/
def matchesAcceptPattern (path : List Char) : Bool :=
  containsSub (lowerL path) ("/mtg-".toList) ||
  containsSub (lowerL path) ("/magic-the-gathering".toList) ||
  containsSub (lowerL path) ("booster-box".toList) ||
  containsSub (lowerL path) ("booster-display".toList)

/-- The fallback heuristic at lines 61-62:
`"/" in path and "." not in path and len(path.strip("/").split("/")) == 1`
then `len(path.strip("/")) > 8`. -/
def fallback_rule (path : List Char) : Bool :=
  if path.contains '/' && !path.contains '.' &&
     ((splitSl (stripSl path)).length == 1) then
    decide (8 < (stripSl path).length)
  else false

/-- `looks_like_product` (lines 56-63). -/
def looks_like_product (path : List Char) : Bool :=
  if hasRejectMarker path then false
  else if matchesAcceptPattern path then true
  else fallback_rule path

/-- The spec's wording of the fallback acceptance condition: the path has
exactly one non-empty segment, contains no dot, and that (unique) segment's
length exceeds 8 characters. -/
def specFallback (p : List Char) : Bool :=
  ((segsOf p).length == 1) && !p.contains '.' &&
    decide (8 < ((segsOf p).headI).length)

/-! ## URL parsing (models `urllib.parse` as used by the program) -/

/-- The parts returned by `urllib.parse.urlsplit`. -/
structure SplitUrl where
  scheme : List Char
  netloc : List Char
  path : List Char
  query : List Char
  fragment : List Char
deriving DecidableEq

/-- Split at the first occurrence of `sep`, removing it; `none` if absent
(models `str.split(sep, 1)` / `str.find`). -/
def splitOnce (sep : Char) : List Char → Option (List Char × List Char)
  | [] => none
  | c :: cs =>
    if c = sep then some ([], cs)
    else
      match splitOnce sep cs with
      | some (a, b) => some (c :: a, b)
      | none => none

/-- Characters allowed in a URL scheme. -/
def isSchemeChar (c : Char) : Bool :=
  c.isAlpha || c.isDigit || c == '+' || c == '-' || c == '.'

/-- Scheme extraction step of `urlsplit`: the text before the first `':'`
is a scheme when it is non-empty, starts with a letter and consists of
scheme characters; it is lowercased. -/
def schemeSplit (url : List Char) : List Char × List Char :=
  match splitOnce ':' url with
  | none => ([], url)
  | some (pre, post) =>
    match pre with
    | [] => ([], url)
    | c :: cs =>
      if c.isAlpha && (c :: cs).all isSchemeChar then (lowerL (c :: cs), post)
      else ([], url)

/-- Netloc extraction step of `urlsplit`: after the scheme, a part
starting with `//` has its netloc run up to the next `'/'`, `'?'` or
`'#'`. -/
def netlocSplit : List Char → List Char × List Char
  | '/' :: '/' :: r =>
    (r.takeWhile (fun c => !(c == '/' || c == '?' || c == '#')),
     r.dropWhile (fun c => !(c == '/' || c == '?' || c == '#')))
  | rest => ([], rest)

/-- `urllib.parse.urlsplit` (scheme, then netloc, then fragment, then
query; the remainder is the path). -/
def urlsplit (url : List Char) : SplitUrl :=
  let sp := schemeSplit url
  let np := netlocSplit sp.2
  let fp := match splitOnce '#' np.2 with
    | some ab => ab
    | none => (np.2, [])
  let qp := match splitOnce '?' fp.1 with
    | some ab => ab
    | none => (fp.1, [])
  ⟨sp.1, np.1, qp.1, qp.2, fp.2⟩

/-- `urllib.parse.urlunsplit`. -/
def urlunsplit (u : SplitUrl) : List Char :=
  let url0 := u.path
  let url1 :=
    if !u.netloc.isEmpty || startsW url0 ("//".toList) then
      ("//".toList) ++ u.netloc ++
        (if !url0.isEmpty && !startsW url0 ("/".toList) then '/' :: url0 else url0)
    else url0
  let url2 := if !u.scheme.isEmpty then u.scheme ++ ':' :: url1 else url1
  let url3 := if !u.query.isEmpty then url2 ++ '?' :: u.query else url2
  if !u.fragment.isEmpty then url3 ++ '#' :: u.fragment else url3

/-- `urllib.parse.uses_relative`. -/
def usesRelative : List (List Char) :=
  ["", "ftp", "http", "gopher", "nntp", "imap", "wais", "file", "https",
   "shttp", "mms", "prospero", "rtsp", "rtspu", "sftp", "svn", "svn+ssh",
   "ws", "wss"].map String.toList

/-- `urllib.parse.uses_netloc`. -/
def usesNetloc : List (List Char) :=
  ["", "ftp", "http", "gopher", "nntp", "telnet", "imap", "wais", "file",
   "mms", "https", "shttp", "snews", "prospero", "rtsp", "rtspu", "rsync",
   "svn", "svn+ssh", "sftp", "nfs", "git", "git+ssh", "ws", "wss",
   "itms-services"].map String.toList

/-- The dot-segment resolution loop of `urljoin` (`'.'` skipped, `'..'`
pops, `IndexError` on an empty stack ignored). -/
def resolveDots : List (List Char) → List (List Char) → List (List Char)
  | [], acc => acc
  | s :: rest, acc =>
    if s = "..".toList then resolveDots rest acc.dropLast
    else if s = ".".toList then resolveDots rest acc
    else resolveDots rest (acc ++ [s])

/-- `segments[1:-1] = filter(None, segments[1:-1])` in `urljoin`. -/
def filterMid : List (List Char) → List (List Char)
  | [] => []
  | [a] => [a]
  | a :: rest =>
    match rest.getLast? with
    | none => [a]
    | some last => a :: ((rest.dropLast.filter (fun s => !s.isEmpty)) ++ [last])

/-- `urllib.parse.urljoin` (CPython's algorithm; the program only joins
empty, fragment-free, parameter-free references against an `https` base,
and the `params` component is modelled as empty throughout). -/
def urljoin (base url : List Char) : List Char :=
  if base.isEmpty then url
  else if url.isEmpty then base
  else
    let b := urlsplit base
    let u0 := urlsplit url
    let uscheme := if u0.scheme.isEmpty then b.scheme else u0.scheme
    if !(uscheme = b.scheme) || !(uscheme ∈ usesRelative) then url
    else
      let netlocOk := uscheme ∈ usesNetloc
      if netlocOk && !u0.netloc.isEmpty then
        urlunsplit ⟨uscheme, u0.netloc, u0.path, u0.query, u0.fragment⟩
      else
        let nl := if netlocOk then b.netloc else u0.netloc
        if u0.path.isEmpty then
          urlunsplit ⟨uscheme, nl, b.path,
                      (if u0.query.isEmpty then b.query else u0.query),
                      u0.fragment⟩
        else
          let segments :=
            if startsW u0.path ("/".toList) then splitSl u0.path
            else
              let baseParts := splitSl b.path
              let baseParts :=
                if !(baseParts.getLast? = some []) then baseParts.dropLast
                else baseParts
              filterMid (baseParts ++ splitSl u0.path)
          let resolved := resolveDots segments []
          let resolved :=
            if segments.getLast? = some (".".toList) ||
               segments.getLast? = some ("..".toList) then resolved ++ [[]]
            else resolved
          let p := List.intercalate ['/'] resolved
          let p := if p.isEmpty then "/".toList else p
          urlunsplit ⟨uscheme, nl, p, u0.query, u0.fragment⟩

/-- `urlparse(url).path`: like `urlsplit(url).path` but with the
`;parameters` suffix of the last path segment split off. -/
def urlparsePath (url : List Char) : List Char :=
  let p := (urlsplit url).path
  let parts := splitSl p
  match parts.getLast? with
  | none => p
  | some last =>
    List.intercalate ['/'] (parts.dropLast ++ [last.takeWhile (fun c => !(c == ';'))])

/-! ## Link normalization and extraction (`monitor.py` lines 41-48, 65-76) -/

/-- The hard-coded host allow-list at line 46. -/
def allowNetlocs : List (List Char) :=
  ["games-island.eu".toList, "www.games-island.eu".toList]

/-- `normalize_url` (lines 41-48). -/
def normalize_url (base href : List Char) : Option (List Char) :=
  if href.isEmpty then none
  else
    let h := stripWsL href
    if startsW h ("#".toList) || containsSub h ("javascript:".toList) then none
    else
      let abs := urljoin base h
      if (urlsplit abs).netloc ∈ allowNetlocs then some abs else none

/-- The anchor loop of `extract_product_links` (lines 68-75); one HTML
anchor is modelled as its `href` attribute paired with its visible text
(already the output of `get_text(strip=True)` modulo the final strip the
code applies). -/
def extractGo (base : List Char) :
    List (List Char × List Char) → List (List Char) → List (List Char × List Char)
  | [], _ => []
  | (href, txt) :: rest, seen =>
    match normalize_url base href with
    | none => extractGo base rest seen
    | some abs =>
      if looks_like_product (urlparsePath abs) then
        let g := stripWsL txt
        let title := stripWsL (if g.isEmpty then abs else g)
        if abs ∈ seen then extractGo base rest seen
        else (abs, title) :: extractGo base rest (abs :: seen)
      else extractGo base rest seen

/-- `extract_product_links` (lines 65-76), with the parsed HTML modelled
as the list of `(href, text)` anchors BeautifulSoup would enumerate. -/
def extract_product_links (anchors : List (List Char × List Char))
    (base : List Char) : List (List Char × List Char) :=
  extractGo base anchors []

/-- The default `GI_CATEGORY_URL` (lines 11-14). -/
def CATEGORY_URL : List Char :=
  "https://games-island.eu/c/Magic-The-Gathering/MtG-Booster-Displays-englisch".toList

/-! ## State store (`monitor.py` lines 78-91) -/

/-- JSON values, as produced by `json.load`. -/
inductive JVal where
  | null : JVal
  | jbool : Bool → JVal
  | jnum : Int → JVal
  | jstr : String → JVal
  | jarr : List JVal → JVal
  | jobj : List (String × JVal) → JVal

mutual

/-- Decidable equality of JSON values (written by hand: `deriving` does
not handle the nested lists). -/
def JVal.decEq : (a b : JVal) → Decidable (a = b)
  | .null, .null => .isTrue rfl
  | .jbool a, .jbool b =>
    if h : a = b then .isTrue (by rw [h]) else .isFalse (fun hc => h (JVal.jbool.inj hc))
  | .jnum a, .jnum b =>
    if h : a = b then .isTrue (by rw [h]) else .isFalse (fun hc => h (JVal.jnum.inj hc))
  | .jstr a, .jstr b =>
    if h : a = b then .isTrue (by rw [h]) else .isFalse (fun hc => h (JVal.jstr.inj hc))
  | .jarr xs, .jarr ys =>
    match JVal.decEqArr xs ys with
    | .isTrue h => .isTrue (by rw [h])
    | .isFalse h => .isFalse (fun hc => h (JVal.jarr.inj hc))
  | .jobj fs, .jobj gs =>
    match JVal.decEqObj fs gs with
    | .isTrue h => .isTrue (by rw [h])
    | .isFalse h => .isFalse (fun hc => h (JVal.jobj.inj hc))
  | .null, .jbool _ | .null, .jnum _ | .null, .jstr _ | .null, .jarr _
  | .null, .jobj _ | .jbool _, .null | .jbool _, .jnum _ | .jbool _, .jstr _
  | .jbool _, .jarr _ | .jbool _, .jobj _ | .jnum _, .null | .jnum _, .jbool _
  | .jnum _, .jstr _ | .jnum _, .jarr _ | .jnum _, .jobj _ | .jstr _, .null
  | .jstr _, .jbool _ | .jstr _, .jnum _ | .jstr _, .jarr _ | .jstr _, .jobj _
  | .jarr _, .null | .jarr _, .jbool _ | .jarr _, .jnum _ | .jarr _, .jstr _
  | .jarr _, .jobj _ | .jobj _, .null | .jobj _, .jbool _ | .jobj _, .jnum _
  | .jobj _, .jstr _ | .jobj _, .jarr _ => .isFalse nofun

def JVal.decEqArr : (xs ys : List JVal) → Decidable (xs = ys)
  | [], [] => .isTrue rfl
  | [], _ :: _ => .isFalse nofun
  | _ :: _, [] => .isFalse nofun
  | x :: xs, y :: ys =>
    match JVal.decEq x y with
    | .isFalse h => .isFalse (fun hc => h (by cases hc; rfl))
    | .isTrue h1 =>
      match JVal.decEqArr xs ys with
      | .isTrue h2 => .isTrue (by rw [h1, h2])
      | .isFalse h2 => .isFalse (fun hc => h2 (by cases hc; rfl))

def JVal.decEqObj : (fs gs : List (String × JVal)) → Decidable (fs = gs)
  | [], [] => .isTrue rfl
  | [], _ :: _ => .isFalse nofun
  | _ :: _, [] => .isFalse nofun
  | (k, v) :: fs, (k2, v2) :: gs =>
    if hk : k = k2 then
      match JVal.decEq v v2 with
      | .isFalse h => .isFalse (fun hc => h (by cases hc; rfl))
      | .isTrue hv =>
        match JVal.decEqObj fs gs with
        | .isTrue h2 => .isTrue (by rw [hk, hv, h2])
        | .isFalse h2 => .isFalse (fun hc => h2 (by cases hc; rfl))
    else .isFalse (fun hc => hk (by cases hc; rfl))

end

instance : DecidableEq JVal := JVal.decEq

/-- Decidable equality for `Except` results. -/
def exceptDecEq {ε α : Type} [DecidableEq ε] [DecidableEq α] :
    (a b : Except ε α) → Decidable (a = b)
  | .ok x, .ok y =>
    if h : x = y then .isTrue (by rw [h]) else .isFalse (fun hc => h (by cases hc; rfl))
  | .error e, .error e2 =>
    if h : e = e2 then .isTrue (by rw [h]) else .isFalse (fun hc => h (by cases hc; rfl))
  | .ok _, .error _ => .isFalse nofun
  | .error _, .ok _ => .isFalse nofun

instance {ε α : Type} [DecidableEq ε] [DecidableEq α] : DecidableEq (Except ε α) :=
  exceptDecEq

/-- The Python exceptions the state-store code can meet. -/
inductive PyErr where
  | osError : PyErr
  | valueError : PyErr
  | attributeError : PyErr
  | typeError : PyErr
deriving DecidableEq

/-- The possible conditions of the state file when `load_state` runs. -/
inductive FileRead where
  | absent : FileRead
  | openFail : FileRead
  | parseFail : FileRead
  | parsed : JVal → FileRead
deriving DecidableEq

/-- Opening/reading and `json.load`-ing the state file: raises on an
unreadable file or invalid JSON (`.absent` is unreachable here because
`load_state` tests `os.path.exists` first). -/
def readAndParse : FileRead → Except PyErr JVal
  | .absent => .error .osError
  | .openFail => .error .osError
  | .parseFail => .error .valueError
  | .parsed j => .ok j

/-- `data.get(...)` requires `data` to be a dict; anything else raises
`AttributeError`. -/
def getAttrDict : JVal → Except PyErr (List (String × JVal))
  | .jobj fs => .ok fs
  | _ => .error .attributeError

/-- `dict.get(k, dflt)`; with `json.load`, a duplicated key keeps the
last occurrence. -/
def dictGet (fields : List (String × JVal)) (k : String) (dflt : JVal) : JVal :=
  match fields.reverse.lookup k with
  | some v => v
  | none => dflt

/-- Python hashability of a JSON value (list/dict values are unhashable). -/
def jHashable : JVal → Bool
  | .jarr _ => false
  | .jobj _ => false
  | _ => true

/-- Python `set(x)`: a set of the elements of a list (raising `TypeError`
on an unhashable element), of the characters of a string, of the keys of
a dict; `TypeError` on non-iterables. -/
def pySet : JVal → Except PyErr (Finset JVal)
  | .jarr xs => if xs.all jHashable then .ok xs.toFinset else .error .typeError
  | .jstr s => .ok ((s.toList.map (fun c => JVal.jstr (String.mk [c]))).toFinset)
  | .jobj fs => .ok ((fs.map (fun kv => JVal.jstr kv.1)).toFinset)
  | _ => .error .typeError

/-- `load_state` (lines 78-85): the `os.path.exists` guard, then a `try`
block whose `except Exception` handler returns the empty set. -/
def load_state (f : FileRead) : Except PyErr (Finset JVal) :=
  if f = .absent then .ok ∅
  else
    match (do
      let j ← readAndParse f
      let fs ← getAttrDict j
      pySet (dictGet fs "product_urls" (.jarr [])) :
        Except PyErr (Finset JVal)) with
    | .ok s => .ok s
    | .error _ => .ok ∅

/-! ## Differ and orchestrator (`monitor.py` lines 93-94, 114-145) -/

/-- The sorted list of a multiset's elements (Python `sorted(a_set)`);
implemented with insertion sort so that it evaluates inside the kernel. -/
def sortedList {α : Type} [LinearOrder α] (s : Multiset α) : List α :=
  Quotient.lift (fun l => List.insertionSort (fun a b => a ≤ b) l)
    (fun l₁ l₂ h =>
      List.eq_of_perm_of_sorted
        (((List.perm_insertionSort _ l₁).trans h).trans
          (List.perm_insertionSort _ l₂).symm)
        (List.sorted_insertionSort _ l₁)
        (List.sorted_insertionSort _ l₂)) s

/-- `diff_links` (lines 93-94): `sorted(new - old)`. -/
def diff_links {α : Type} [LinearOrder α] (old nw : Finset α) : List α :=
  sortedList (nw \ old).val

/-- How the process ends: `sys.exit(main())`, or an exception escaping
`main` (CPython prints a traceback and exits with status 1). -/
inductive Outcome where
  | exited : Nat → Outcome
  | raised : Outcome
deriving DecidableEq

/-- The process exit status an `Outcome` produces. -/
def exitCodeOf : Outcome → Nat
  | .exited c => c
  | .raised => 1

/-- Observable side effects of a run, in order: a call to
`notify_new_items` (with its argument and whether an email actually went
out), and a call to `save_state` (with the set it persists). -/
inductive Eff (α : Type) where
  | notifyCall : List α → Bool → Eff α
  | saveCall : Finset α → Eff α
deriving DecidableEq

/-- `notify_new_items urls` (lines 114-119): sends an email (success
`emailOk`, covering both configuration presence and SMTP delivery) unless
the list is empty. -/
def notify_model {α : Type} (emailOk : Bool) (urls : List α) : Eff α :=
  .notifyCall urls (!urls.isEmpty && emailOk)

/-- The outcome of a run together with its effect trace. -/
structure RunOut (α : Type) where
  outcome : Outcome
  trace : List (Eff α)
deriving DecidableEq

/-- `main` (lines 121-145) as a function of the run's external
conditions: `fetchOk` is whether `http_get` succeeds, `current` the set
extracted from the page, `prev` the set `load_state` returns, `saveOk`
whether writing the state file succeeds (`save_state` is not guarded by
any `try`, so a failure propagates), `emailOk` whether an email can be
sent, and `notifyFirst` the `NOTIFY_ON_FIRST_RUN == "1"` flag. -/
def main_model {α : Type} [LinearOrder α] (fetchOk : Bool)
    (current prev : Finset α) (saveOk emailOk notifyFirst : Bool) : RunOut α :=
  if !fetchOk then ⟨.exited 2, []⟩
  else
    let new := diff_links prev current
    if prev.card = 0 then
      if saveOk then
        ⟨.exited 0,
         .saveCall current ::
           (if notifyFirst then [notify_model emailOk (sortedList current.val)] else [])⟩
      else ⟨.raised, []⟩
    else if !new.isEmpty then
      if saveOk then
        ⟨.exited 0, [notify_model emailOk new, .saveCall (prev ∪ new.toFinset)]⟩
      else ⟨.raised, [notify_model emailOk new]⟩
    else ⟨.exited 0, []⟩

/-! ## Lemmas about splitting and stripping paths -/

theorem splitSl_slash (cs : List Char) : splitSl ('/' :: cs) = [] :: splitSl cs := by
  rcases h : splitSl cs with _ | ⟨s, rest⟩ <;> simp [splitSl, h]

theorem splitSl_cons_of_ne (c : Char) (cs : List Char) (hc : (c == '/') = false)
    (s : List Char) (rest : List (List Char)) (h : splitSl cs = s :: rest) :
    splitSl (c :: cs) = (c :: s) :: rest := by
  simp [splitSl, h, hc]

theorem splitSl_ne_nil (l : List Char) : splitSl l ≠ [] := by
  cases l with
  | nil => simp [splitSl]
  | cons c cs =>
    rcases h : splitSl cs with _ | ⟨s, rest⟩ <;> cases hc : (c == '/') <;>
      simp [splitSl, h, hc]

theorem splitSl_shape (l : List Char) : ∃ s rest, splitSl l = s :: rest := by
  rcases h : splitSl l with _ | ⟨s, rest⟩
  · exact absurd h (splitSl_ne_nil l)
  · exact ⟨s, rest, rfl⟩

theorem splitSl_of_not_mem (l : List Char) (h : '/' ∉ l) : splitSl l = [l] := by
  induction l with
  | nil => rfl
  | cons c cs ih =>
    rw [List.mem_cons, not_or] at h
    obtain ⟨h1, h2⟩ := h
    have hc : (c == '/') = false := by
      simp only [beq_eq_false_iff_ne]
      exact fun hcc => h1 hcc.symm
    rw [splitSl_cons_of_ne c cs hc cs [] (ih h2)]

theorem not_mem_of_splitSl_length (l : List Char)
    (h : (splitSl l).length = 1) : '/' ∉ l := by
  induction l with
  | nil => simp
  | cons c cs ih =>
    by_cases hceq : c = '/'
    · subst hceq
      rw [splitSl_slash] at h
      simp only [List.length_cons, Nat.add_eq_zero] at h
      exact absurd (List.length_eq_zero.mp (by omega)) (splitSl_ne_nil cs)
    · have hc : (c == '/') = false := beq_eq_false_iff_ne.mpr hceq
      obtain ⟨s, rest, hs⟩ := splitSl_shape cs
      rw [splitSl_cons_of_ne c cs hc s rest hs] at h
      simp only [List.length_cons] at h
      have hrest : rest = [] := List.length_eq_zero.mp (by omega)
      have hlen : (splitSl cs).length = 1 := by rw [hs, hrest]; rfl
      intro hm
      rcases List.mem_cons.mp hm with h3 | h3
      · exact hceq h3.symm
      · exact ih hlen h3

theorem splitSl_decomp (l : List Char) (h : '/' ∈ l) :
    ∃ s rest, '/' ∉ s ∧ l = s ++ '/' :: rest ∧ splitSl l = s :: splitSl rest := by
  induction l with
  | nil => simp at h
  | cons c cs ih =>
    by_cases hceq : c = '/'
    · subst hceq
      exact ⟨[], cs, by simp, rfl, splitSl_slash cs⟩
    · have hmem : '/' ∈ cs := by
        rcases List.mem_cons.mp h with h1 | h1
        · exact absurd h1.symm hceq
        · exact h1
      obtain ⟨s, rest, hns, heq, hsp⟩ := ih hmem
      have hc : (c == '/') = false := beq_eq_false_iff_ne.mpr hceq
      refine ⟨c :: s, rest, ?_, ?_, ?_⟩
      · rw [List.mem_cons, not_or]
        exact ⟨fun hcc => hceq hcc.symm, hns⟩
      · rw [List.cons_append, heq]
      · obtain ⟨s2, rest2, hs2⟩ := splitSl_shape rest
        rw [heq] at hsp ⊢
        exact splitSl_cons_of_ne c _ hc s (splitSl rest) hsp

theorem splitSl_append_slash (l : List Char) :
    splitSl (l ++ ['/']) = splitSl l ++ [[]] := by
  induction l with
  | nil => decide
  | cons c cs ih =>
    by_cases hceq : c = '/'
    · subst hceq
      rw [List.cons_append, splitSl_slash, splitSl_slash, ih]
      rfl
    · have hc : (c == '/') = false := beq_eq_false_iff_ne.mpr hceq
      obtain ⟨s, rest, hs⟩ := splitSl_shape cs
      have h2 : splitSl (cs ++ ['/']) = s :: (rest ++ [[]]) := by
        rw [ih, hs]; rfl
      rw [List.cons_append, splitSl_cons_of_ne c _ hc s (rest ++ [[]]) h2,
          splitSl_cons_of_ne c cs hc s rest hs]
      rfl

theorem segsOf_append_replicate (k : Nat) :
    ∀ l : List Char, segsOf (l ++ List.replicate k '/') = segsOf l := by
  induction k with
  | zero => intro l; simp
  | succ k ih =>
    intro l
    have hsplit : l ++ List.replicate (k + 1) '/' = (l ++ ['/']) ++ List.replicate k '/' := by
      rw [List.replicate_succ, List.append_cons]
    rw [hsplit, ih (l ++ ['/'])]
    unfold segsOf
    rw [splitSl_append_slash, List.filter_append]
    simp

theorem segsOf_dropWhile (l : List Char) :
    segsOf (l.dropWhile (fun c => c == '/')) = segsOf l := by
  induction l with
  | nil => rfl
  | cons c cs ih =>
    by_cases hceq : c = '/'
    · subst hceq
      rw [List.dropWhile_cons]
      simp only [beq_self_eq_true, if_true]
      rw [ih]
      unfold segsOf
      rw [splitSl_slash]
      simp
    · have hc : (c == '/') = false := beq_eq_false_iff_ne.mpr hceq
      simp [List.dropWhile_cons, hc]

theorem rdropSl_decomp (l : List Char) :
    ∃ k, l = rdropP (fun c => c == '/') l ++ List.replicate k '/' := by
  induction l with
  | nil => exact ⟨0, rfl⟩
  | cons c cs ih =>
    obtain ⟨k, hk⟩ := ih
    rcases hr : rdropP (fun c => c == '/') cs with _ | ⟨r0, rs⟩
    · by_cases hceq : c = '/'
      · subst hceq
        refine ⟨k + 1, ?_⟩
        rw [hr, List.nil_append] at hk
        have h0 : rdropP (fun c => c == '/') ('/' :: cs) = [] := by
          simp [rdropP, hr]
        rw [h0, List.nil_append, List.replicate_succ, ← hk]
      · have hc : (c == '/') = false := beq_eq_false_iff_ne.mpr hceq
        have : rdropP (fun c => c == '/') (c :: cs) = [c] := by
          simp [rdropP, hr, hc]
        refine ⟨k, ?_⟩
        rw [this]
        rw [hr, List.nil_append] at hk
        rw [List.cons_append, List.nil_append, ← hk]
    · have : rdropP (fun c => c == '/') (c :: cs) = c :: (r0 :: rs) := by
        simp [rdropP, hr]
      refine ⟨k, ?_⟩
      rw [this, List.cons_append, ← hr, ← hk]

theorem segsOf_stripSl (l : List Char) : segsOf (stripSl l) = segsOf l := by
  unfold stripSl
  obtain ⟨k, hk⟩ := rdropSl_decomp (l.dropWhile (fun c => c == '/'))
  calc segsOf (rdropP (fun c => c == '/') (l.dropWhile (fun c => c == '/')))
      = segsOf (rdropP (fun c => c == '/') (l.dropWhile (fun c => c == '/')) ++
          List.replicate k '/') := (segsOf_append_replicate k _).symm
    _ = segsOf (l.dropWhile (fun c => c == '/')) := by rw [← hk]
    _ = segsOf l := segsOf_dropWhile l

theorem dropWhile_head_not (p : Char → Bool) (l : List Char) :
    l.dropWhile p = [] ∨ ∃ c cs, l.dropWhile p = c :: cs ∧ p c = false := by
  induction l with
  | nil => exact Or.inl rfl
  | cons a as ih =>
    rw [List.dropWhile_cons]
    cases hpa : p a
    · exact Or.inr ⟨a, as, by simp, hpa⟩
    · simpa using ih

theorem rdropP_head (p : Char → Bool) (c : Char) (cs : List Char) :
    rdropP p (c :: cs) = [] ∨ ∃ r, rdropP p (c :: cs) = c :: r := by
  rcases hr : rdropP p cs with _ | ⟨r0, rs⟩ <;> cases hpc : p c <;>
    simp [rdropP, hr, hpc]

theorem stripSl_head (l : List Char) :
    stripSl l = [] ∨ ∃ c cs, stripSl l = c :: cs ∧ (c == '/') = false := by
  unfold stripSl
  rcases dropWhile_head_not (fun c => c == '/') l with h | ⟨c, cs, h, hpc⟩
  · rw [h]; exact Or.inl rfl
  · rw [h]
    rcases rdropP_head (fun c => c == '/') c cs with h2 | ⟨r, h2⟩
    · exact Or.inl h2
    · exact Or.inr ⟨c, r, h2, hpc⟩

theorem rdropP_getLast (p : Char → Bool) :
    ∀ (l : List Char) (c : Char), (rdropP p l).getLast? = some c → p c = false := by
  intro l
  induction l with
  | nil => intro c h; simp [rdropP] at h
  | cons a as ih =>
    intro c h
    rcases hr : rdropP p as with _ | ⟨r0, rs⟩
    · cases hpc : p a
      · have : rdropP p (a :: as) = [a] := by simp [rdropP, hr, hpc]
        rw [this] at h
        simp only [List.getLast?_singleton, Option.some.injEq] at h
        rw [← h]; exact hpc
      · have : rdropP p (a :: as) = [] := by simp [rdropP, hr, hpc]
        rw [this] at h
        simp at h
    · have : rdropP p (a :: as) = a :: (r0 :: rs) := by simp [rdropP, hr]
      rw [this, List.getLast?_cons_cons] at h
      exact ih c (hr ▸ h)

theorem getLast?_append_right {α : Type} (l₁ l₂ : List α) (h : l₂ ≠ []) :
    (l₁ ++ l₂).getLast? = l₂.getLast? := by
  induction l₁ with
  | nil => rfl
  | cons a as ih =>
    rcases hsh : as ++ l₂ with _ | ⟨b, bs⟩
    · exact absurd (List.append_eq_nil.mp hsh).2 h
    · rw [List.cons_append, hsh, List.getLast?_cons_cons, ← hsh, ih]

theorem notEmpty_ne (l : List Char) (h : l ≠ []) : (!l.isEmpty) = true := by
  cases l with
  | nil => exact absurd rfl h
  | cons a as => rfl

theorem segsOf_slash (cs : List Char) : segsOf ('/' :: cs) = segsOf cs := by
  unfold segsOf
  rw [splitSl_slash]
  simp

theorem segsOf_cons_ne (c : Char) (cs : List Char) (hc : (c == '/') = false) :
    ∃ s rest, segsOf (c :: cs) = (c :: s) :: rest := by
  obtain ⟨s, r, hs⟩ := splitSl_shape cs
  refine ⟨s, r.filter (fun s => !s.isEmpty), ?_⟩
  unfold segsOf
  rw [splitSl_cons_of_ne c cs hc s r hs]
  simp

theorem segsOf_ne_nil_of_last (l : List Char) (hne : l ≠ [])
    (hlast : ∀ c, l.getLast? = some c → (c == '/') = false) : segsOf l ≠ [] := by
  induction l with
  | nil => exact absurd rfl hne
  | cons a as ih =>
    by_cases haeq : a = '/'
    · subst haeq
      rw [segsOf_slash]
      have hne2 : as ≠ [] := by
        intro h0
        subst h0
        have h3 := hlast '/' (by simp)
        simp at h3
      refine ih hne2 ?_
      intro c hcl
      refine hlast c ?_
      rcases has : as with _ | ⟨b, bs⟩
      · exact absurd has hne2
      · rw [has] at hcl
        rw [List.getLast?_cons_cons]
        exact hcl
    · obtain ⟨s, rest, hseq⟩ :=
        segsOf_cons_ne a as (beq_eq_false_iff_ne.mpr haeq)
      rw [hseq]
      simp

theorem two_segs (m : List Char)
    (hhead : ∀ c cs, m = c :: cs → (c == '/') = false)
    (hlast : ∀ c, m.getLast? = some c → (c == '/') = false)
    (hmem : '/' ∈ m) : 2 ≤ (segsOf m).length := by
  obtain ⟨s, rest, hns, heq, hsp⟩ := splitSl_decomp m hmem
  have hs_ne : s ≠ [] := by
    intro h0
    subst h0
    rw [List.nil_append] at heq
    have h3 := hhead '/' rest heq
    simp at h3
  have hrest_ne : rest ≠ [] := by
    intro h0
    subst h0
    have h4 : m.getLast? = some '/' := by
      rw [heq, getLast?_append_right s ['/'] (by simp)]
      simp
    have h5 := hlast '/' h4
    simp at h5
  have hlast_rest : ∀ c, rest.getLast? = some c → (c == '/') = false := by
    intro c hcl
    refine hlast c ?_
    rw [heq, getLast?_append_right s ('/' :: rest) (by simp)]
    rcases hr : rest with _ | ⟨r0, rs⟩
    · exact absurd hr hrest_ne
    · rw [List.getLast?_cons_cons, ← hr]
      exact hcl
  have h2 : segsOf rest ≠ [] := segsOf_ne_nil_of_last rest hrest_ne hlast_rest
  have hseg : segsOf m = s :: segsOf rest := by
    unfold segsOf
    rw [hsp]
    simp only [List.filter_cons, notEmpty_ne s hs_ne, if_true]
  rw [hseg]
  have h3 := List.length_pos.mpr h2
  simp only [List.length_cons]
  omega

theorem segsOf_eq_single_self (m : List Char) (hm : splitSl m = [m]) (hne : m ≠ []) :
    segsOf m = [m] := by
  unfold segsOf
  rw [hm, List.filter_cons, notEmpty_ne _ hne]
  simp

/-- Forward direction of the fallback equivalence: when the code's
one-piece test and length test hold, the path's non-empty segments are
exactly the stripped path. -/
theorem segsOf_single_of_code (p : List Char)
    (hlen : (splitSl (stripSl p)).length = 1) (hgt : 8 < (stripSl p).length) :
    segsOf p = [stripSl p] := by
  have hnm : '/' ∉ stripSl p := not_mem_of_splitSl_length _ hlen
  have hsp : splitSl (stripSl p) = [stripSl p] := splitSl_of_not_mem _ hnm
  have hne : stripSl p ≠ [] := by
    intro h0
    rw [h0] at hgt
    simp at hgt
  rw [← segsOf_stripSl]
  exact segsOf_eq_single_self _ hsp hne

/-- Backward direction: from a unique long non-empty segment, recover the
code's tests. -/
theorem code_of_segsOf_single (p s : List Char)
    (hs : segsOf p = [s]) (_hgt : 8 < s.length) :
    splitSl (stripSl p) = [stripSl p] ∧ stripSl p = s := by
  have hm : segsOf (stripSl p) = [s] := by rw [segsOf_stripSl, hs]
  have hmne : stripSl p ≠ [] := by
    intro h0
    rw [h0] at hm
    simp [segsOf, splitSl] at hm
  have hnosl : '/' ∉ stripSl p := by
    intro hmem
    have hhead : ∀ c cs, stripSl p = c :: cs → (c == '/') = false := by
      intro c cs hcc
      rcases stripSl_head p with h0 | ⟨c2, cs2, h3, h4⟩
      · exact absurd h0 hmne
      · rw [hcc] at h3
        injection h3 with he _
        rw [he]
        exact h4
    have hlast : ∀ c, (stripSl p).getLast? = some c → (c == '/') = false :=
      fun c hcl => rdropP_getLast (fun c => c == '/') _ c hcl
    have h2s := two_segs (stripSl p) hhead hlast hmem
    rw [hm] at h2s
    simp at h2s
  have hsp := splitSl_of_not_mem _ hnosl
  refine ⟨hsp, ?_⟩
  have hm2 : segsOf (stripSl p) = [stripSl p] := segsOf_eq_single_self _ hsp hmne
  rw [hm2] at hm
  simpa using hm

/-- The fallback rule of the classifier, re-expressed with the spec's
"exactly one non-empty segment" wording, guarded by the slash-membership
test the code performs first. -/
theorem fallback_equiv (p : List Char) :
    fallback_rule p = (p.contains '/' && specFallback p) := by
  unfold fallback_rule specFallback
  rcases h1 : p.contains '/' with _ | _
  · simp [h1]
  · rcases h2 : p.contains '.' with _ | _
    · rcases hlen : ((splitSl (stripSl p)).length == 1) with _ | _
      · simp only [h1, h2, hlen, Bool.not_false, Bool.true_and, Bool.and_false,
          if_false]
        by_cases hseg : (segsOf p).length = 1
        · rcases hsgl : segsOf p with _ | ⟨s, rest⟩
          · rw [hsgl] at hseg
            simp at hseg
          · have hrest : rest = [] := by
              rw [hsgl] at hseg
              simpa using hseg
            subst hrest
            by_cases hgt : 8 < s.length
            · exfalso
              obtain ⟨hsp, _⟩ := code_of_segsOf_single p s hsgl hgt
              rw [hsp] at hlen
              simp at hlen
            · simp [hgt]
        · have : ((segsOf p).length == 1) = false := by
            simpa using hseg
          simp [this]
      · have hl : (splitSl (stripSl p)).length = 1 := by simpa using hlen
        rcases hbig : decide (8 < (stripSl p).length) with _ | _
        · have hle : ¬(8 < (stripSl p).length) := of_decide_eq_false hbig
          simp only [h1, h2, hlen, Bool.not_false, Bool.true_and, Bool.and_true,
            if_true, hbig]
          by_cases hseg : (segsOf p).length = 1
          · rcases hsgl : segsOf p with _ | ⟨s, rest⟩
            · rw [hsgl] at hseg
              simp at hseg
            · have hrest : rest = [] := by
                rw [hsgl] at hseg
                simpa using hseg
              subst hrest
              by_cases hgt : 8 < s.length
              · exfalso
                obtain ⟨_, hstrip⟩ := code_of_segsOf_single p s hsgl hgt
                rw [hstrip] at hle
                exact hle hgt
              · simp [hgt]
          · have : ((segsOf p).length == 1) = false := by
              simpa using hseg
            simp [this]
        · have hgt : 8 < (stripSl p).length := of_decide_eq_true hbig
          have hsegp := segsOf_single_of_code p hl hgt
          simp only [h1, h2, hlen, Bool.not_false, Bool.true_and, Bool.and_true,
            if_true, hbig, hsegp]
          simp [hgt]
    · simp [h1, h2]

/-! ## Lemmas about the differ and the orchestrator -/

theorem mem_sortedList {α : Type} [LinearOrder α] (s : Multiset α) (x : α) :
    x ∈ sortedList s ↔ x ∈ s := by
  refine Quotient.inductionOn s fun l => ?_
  exact ((List.perm_insertionSort (fun a b => a ≤ b) l).mem_iff).trans
    Multiset.mem_coe.symm

theorem sorted_sortedList {α : Type} [LinearOrder α] (s : Multiset α) :
    List.Sorted (fun a b => a ≤ b) (sortedList s) :=
  Quotient.inductionOn s fun l => List.sorted_insertionSort (fun a b => a ≤ b) l

theorem nodup_sortedList {α : Type} [LinearOrder α] (s : Multiset α)
    (h : s.Nodup) : (sortedList s).Nodup := by
  revert h
  refine Quotient.inductionOn s fun l h => ?_
  exact ((List.perm_insertionSort (fun a b => a ≤ b) l).nodup_iff).mpr
    (Multiset.coe_nodup.mp h)

theorem mem_diff_links {α : Type} [LinearOrder α] (old nw : Finset α) (x : α) :
    x ∈ diff_links old nw ↔ (x ∈ nw ∧ x ∉ old) := by
  unfold diff_links
  rw [mem_sortedList, Finset.mem_val, Finset.mem_sdiff]

/-- The outcome of a run depends only on the fetch result, the bootstrap
test, whether the diff is empty, and whether saving succeeds. -/
theorem main_model_outcome {α : Type} [LinearOrder α] (fetchOk : Bool)
    (current prev : Finset α) (s e f : Bool) :
    (main_model fetchOk current prev s e f).outcome =
      (if fetchOk = false then Outcome.exited 2
       else if (prev.card = 0 ∨ (diff_links prev current).isEmpty = false) ∧
               s = false then Outcome.raised
       else Outcome.exited 0) := by
  cases fetchOk <;> by_cases hboot : prev.card = 0 <;>
    rcases hnew : (diff_links prev current).isEmpty with _ | _ <;> cases s <;>
      simp [main_model, hboot, hnew]

/-- Every URL `normalize_url` returns has an allow-listed netloc. -/
theorem normalize_url_mem_allow (base href abs : List Char)
    (h : normalize_url base href = some abs) :
    (urlsplit abs).netloc ∈ allowNetlocs := by
  simp only [normalize_url] at h
  split at h
  · simp at h
  · split at h
    · simp at h
    · split at h
      next hmem =>
        injection h with hX
        rw [← hX]
        exact hmem
      next hmem => simp at h

/-- Every URL the anchor loop emits has an allow-listed netloc. -/
theorem extractGo_netloc (base : List Char) :
    ∀ (anchors : List (List Char × List Char)) (seen : List (List Char))
      (u t : List Char), (u, t) ∈ extractGo base anchors seen →
      (urlsplit u).netloc ∈ allowNetlocs := by
  intro anchors
  induction anchors with
  | nil =>
    intro seen u t h
    simp [extractGo] at h
  | cons a rest ih =>
    intro seen u t h
    obtain ⟨href, txt⟩ := a
    rcases hn : normalize_url base href with _ | abs
    · simp only [extractGo, hn] at h
      exact ih seen u t h
    · simp only [extractGo, hn] at h
      split at h
      · split at h
        · exact ih seen u t h
        · rcases List.mem_cons.mp h with hhd | htl
          · have hu : u = abs := congrArg Prod.fst hhd
            rw [hu]
            exact normalize_url_mem_allow base href abs hn
          · exact ih (abs :: seen) u t htl
      · exact ih seen u t h

/-! ## Claim theorems -/

/-- Claim C1: in a non-bootstrap (steady-state) run, the new-URL list is
exactly the elements of `current` absent from `prev`, and when it is
non-empty the orchestrator notifies and then persists the union of the
previous set and the new URLs — which equals `prev ∪ current`, not the
raw current set. -/
theorem steady_state_monotonic_union {α : Type} [LinearOrder α]
    (prev current : Finset α) (e f : Bool) (hprev : prev ≠ ∅) :
    (∀ x, x ∈ diff_links prev current ↔ (x ∈ current ∧ x ∉ prev)) ∧
    (diff_links prev current ≠ [] →
      main_model true current prev true e f =
        ⟨Outcome.exited 0,
         [notify_model e (diff_links prev current),
          Eff.saveCall (prev ∪ (diff_links prev current).toFinset)]⟩ ∧
      prev ∪ (diff_links prev current).toFinset = prev ∪ current) := by
  constructor
  · exact fun x => mem_diff_links prev current x
  · intro hne
    have hcard : ¬(prev.card = 0) := by
      simpa [Finset.card_eq_zero] using hprev
    have hisE : (diff_links prev current).isEmpty = false := by
      cases hdd : diff_links prev current with
      | nil => exact absurd hdd hne
      | cons a as => rfl
    constructor
    · simp [main_model, hcard, hisE]
    · have htf : (diff_links prev current).toFinset = current \ prev := by
        ext x
        rw [List.mem_toFinset, mem_diff_links, Finset.mem_sdiff]
      rw [htf, Finset.union_sdiff_self_eq_union]

/-- Witness for C1 at the spec's example: previous `{1, 2}` ("A, B"),
current `{2, 3}` ("B, C"). -/
theorem steady_state_monotonic_union_witness :
    (3 ∈ diff_links ({1, 2} : Finset ℕ) ({2, 3} : Finset ℕ) ↔
      (3 ∈ ({2, 3} : Finset ℕ) ∧ 3 ∉ ({1, 2} : Finset ℕ))) ∧
    (main_model true ({2, 3} : Finset ℕ) ({1, 2} : Finset ℕ) true true false =
        ⟨Outcome.exited 0,
         [notify_model true (diff_links ({1, 2} : Finset ℕ) ({2, 3} : Finset ℕ)),
          Eff.saveCall (({1, 2} : Finset ℕ) ∪
            (diff_links ({1, 2} : Finset ℕ) ({2, 3} : Finset ℕ)).toFinset)]⟩ ∧
      ({1, 2} : Finset ℕ) ∪
          (diff_links ({1, 2} : Finset ℕ) ({2, 3} : Finset ℕ)).toFinset =
        ({1, 2} : Finset ℕ) ∪ ({2, 3} : Finset ℕ)) :=
  ⟨(steady_state_monotonic_union ({1, 2} : Finset ℕ) ({2, 3} : Finset ℕ)
      true false (by decide)).1 3,
   (steady_state_monotonic_union ({1, 2} : Finset ℕ) ({2, 3} : Finset ℕ)
      true false (by decide)).2 (by decide)⟩

/-- Claim C2: every URL in the extraction result has host exactly
`games-island.eu` or `www.games-island.eu`, for every anchor list and
base URL. -/
theorem extract_links_host_allowlisted (anchors : List (List Char × List Char))
    (base u t : List Char) (h : (u, t) ∈ extract_product_links anchors base) :
    (urlsplit u).netloc = "games-island.eu".toList ∨
    (urlsplit u).netloc = "www.games-island.eu".toList := by
  have hm := extractGo_netloc base anchors [] u t h
  simpa [allowNetlocs] using hm

/-- Witness for C2 on a concrete page containing one product anchor. -/
theorem extract_links_host_allowlisted_witness :
    (("https://games-island.eu/MtG-Foo-Bar-Baz".toList, "x".toList) ∈
      extract_product_links [("/MtG-Foo-Bar-Baz".toList, "x".toList)]
        CATEGORY_URL) ∧
    ((urlsplit ("https://games-island.eu/MtG-Foo-Bar-Baz".toList)).netloc =
        "games-island.eu".toList ∨
      (urlsplit ("https://games-island.eu/MtG-Foo-Bar-Baz".toList)).netloc =
        "www.games-island.eu".toList) :=
  ⟨by decide,
   extract_links_host_allowlisted [("/MtG-Foo-Bar-Baz".toList, "x".toList)]
     CATEGORY_URL ("https://games-island.eu/MtG-Foo-Bar-Baz".toList)
     ("x".toList) (by decide)⟩

/-- Claim C3: the classifier applies reject-markers first, then the
accept-patterns, then the fallback heuristic, first applicable rule
deciding; in particular `/MtG-Booster-Display-Foo` is product-like and
`/c/MtG-Booster-Displays` is not, despite matching an accept pattern. -/
theorem classifier_rule_order :
    (∀ p : List Char, hasRejectMarker p = true → looks_like_product p = false) ∧
    (∀ p : List Char, hasRejectMarker p = false → matchesAcceptPattern p = true →
      looks_like_product p = true) ∧
    (∀ p : List Char, hasRejectMarker p = false → matchesAcceptPattern p = false →
      looks_like_product p = fallback_rule p) ∧
    looks_like_product ("/MtG-Booster-Display-Foo".toList) = true ∧
    looks_like_product ("/c/MtG-Booster-Displays".toList) = false := by
  refine ⟨?_, ?_, ?_, by decide, by decide⟩
  · intro p h
    simp [looks_like_product, h]
  · intro p h1 h2
    simp [looks_like_product, h1, h2]
  · intro p h1 h2
    simp [looks_like_product, h1, h2]

/-- Witness for C3: one concrete path through each of the three rules. -/
theorem classifier_rule_order_witness :
    looks_like_product ("/search/foo".toList) = false ∧
    looks_like_product ("/x/Magic-The-Gathering-Thing".toList) = true ∧
    looks_like_product ("/Dragon-Shield-Matte".toList) =
      fallback_rule ("/Dragon-Shield-Matte".toList) :=
  ⟨classifier_rule_order.1 _ (by decide),
   classifier_rule_order.2.1 _ (by decide) (by decide),
   classifier_rule_order.2.2.1 _ (by decide) (by decide)⟩

/-- Claim C4 as frozen is false: the path `abcdefghij` contains no reject
marker, matches no accept pattern, has exactly one non-empty segment with
no dot and length exceeding 8 — yet the code classifies it non-product
(the fallback also requires a `/` in the path). -/
theorem fallback_iff_counterexample :
    hasRejectMarker ("abcdefghij".toList) = false ∧
    matchesAcceptPattern ("abcdefghij".toList) = false ∧
    specFallback ("abcdefghij".toList) = true ∧
    looks_like_product ("abcdefghij".toList) = false := by decide

/-- Claim C4 (amended): for paths with no reject marker and no accept
pattern, the classifier accepts exactly when the path contains a slash,
has exactly one non-empty segment, contains no dot, and that segment's
length exceeds 8. -/
theorem fallback_amended (p : List Char) (h1 : hasRejectMarker p = false)
    (h2 : matchesAcceptPattern p = false) :
    looks_like_product p = (p.contains '/' && specFallback p) := by
  have h3 : looks_like_product p = fallback_rule p := by
    simp [looks_like_product, h1, h2]
  rw [h3, fallback_equiv]

/-- Witness for the amended C4 at a slug-only path. -/
theorem fallback_amended_witness :
    hasRejectMarker ("/Dragon-Shield-Sleeves".toList) = false ∧
    matchesAcceptPattern ("/Dragon-Shield-Sleeves".toList) = false ∧
    looks_like_product ("/Dragon-Shield-Sleeves".toList) =
      (("/Dragon-Shield-Sleeves".toList).contains '/' &&
        specFallback ("/Dragon-Shield-Sleeves".toList)) :=
  ⟨by decide, by decide, fallback_amended _ (by decide) (by decide)⟩

/-- Claim C5 as frozen is false: an href of a single space trims to the
empty string, yet `normalize_url` does not discard it — the emptiness
test runs before trimming, and the empty reference resolves to the base
URL itself. -/
theorem normalize_ws_counterexample :
    stripWsL (" ".toList) = [] ∧
    normalize_url CATEGORY_URL (" ".toList) = some CATEGORY_URL := by decide

/-- Claim C5 (amended): `normalize_url` discards an href exactly when the
raw value is empty, the trimmed value starts with `#`, the trimmed value
contains `javascript:`, or the resolved URL's host is off the allow-list;
otherwise it returns the trimmed value resolved against the base URL. -/
theorem normalize_url_amended (base href : List Char) :
    (href = [] → normalize_url base href = none) ∧
    (startsW (stripWsL href) ("#".toList) = true →
      normalize_url base href = none) ∧
    (containsSub (stripWsL href) ("javascript:".toList) = true →
      normalize_url base href = none) ∧
    (href ≠ [] → startsW (stripWsL href) ("#".toList) = false →
      containsSub (stripWsL href) ("javascript:".toList) = false →
      normalize_url base href =
        (if (urlsplit (urljoin base (stripWsL href))).netloc ∈ allowNetlocs
         then some (urljoin base (stripWsL href)) else none)) := by
  refine ⟨?_, ?_, ?_, ?_⟩
  · intro h
    subst h
    rfl
  · intro h
    by_cases hE : href.isEmpty = true
    · simp only [normalize_url]
      rw [if_pos hE]
    · simp only [normalize_url]
      rw [if_neg hE, h]
      simp
  · intro h
    by_cases hE : href.isEmpty = true
    · simp only [normalize_url]
      rw [if_pos hE]
    · simp only [normalize_url]
      rw [if_neg hE, h]
      simp
  · intro h1 h2 h3
    have hE : href.isEmpty = false := by
      cases href with
      | nil => exact absurd rfl h1
      | cons a as => rfl
    simp only [normalize_url]
    rw [hE]
    rw [if_neg (show ¬(false = true) by simp)]
    rw [h2, h3]
    rw [if_neg (show ¬((false || false) = true) by simp)]

/-- Witness for the amended C5: a fragment href is discarded; a relative
product href resolves against the base. -/
theorem normalize_url_amended_witness :
    normalize_url CATEGORY_URL ("#reviews".toList) = none ∧
    normalize_url CATEGORY_URL ("/MtG-Foo-Bar-Baz".toList) =
      (if (urlsplit (urljoin CATEGORY_URL
            (stripWsL ("/MtG-Foo-Bar-Baz".toList)))).netloc ∈ allowNetlocs
       then some (urljoin CATEGORY_URL (stripWsL ("/MtG-Foo-Bar-Baz".toList)))
       else none) :=
  ⟨(normalize_url_amended CATEGORY_URL ("#reviews".toList)).2.1 (by decide),
   (normalize_url_amended CATEGORY_URL ("/MtG-Foo-Bar-Baz".toList)).2.2.2
     (by decide) (by decide) (by decide)⟩

/-- Claim C6 as frozen is false: with the fetch succeeding but the state
write failing on a steady-state run with new URLs, `main` neither returns
0 nor 2 — the exception escapes and the process exits 1. -/
theorem save_failure_exit_counterexample :
    (main_model true ({1} : Finset ℕ) ({0} : Finset ℕ) false true
        false).outcome ≠ Outcome.exited 0 ∧
    (main_model true ({1} : Finset ℕ) ({0} : Finset ℕ) false true
        false).outcome ≠ Outcome.exited 2 ∧
    exitCodeOf (main_model true ({1} : Finset ℕ) ({0} : Finset ℕ) false true
        false).outcome = 1 := by decide

/-- Claim C6 (amended): exit code 2 exactly when the fetch fails; empty
extraction, email failures and state-parse failures still exit 0; but a
state-save failure propagates an uncaught exception (process exit 1), so
the possible exit codes are 0, 1 and 2. -/
theorem exit_codes_amended {α : Type} [LinearOrder α] (fetchOk : Bool)
    (current prev : Finset α) (s e f : Bool) :
    ((main_model fetchOk current prev s e f).outcome = Outcome.exited 2 ↔
      fetchOk = false) ∧
    (fetchOk = true → s = true →
      (main_model fetchOk current prev s e f).outcome = Outcome.exited 0) ∧
    (fetchOk = true → prev ≠ ∅ → diff_links prev current = [] →
      (main_model fetchOk current prev s e f).outcome = Outcome.exited 0) ∧
    (fetchOk = true → s = false → prev ≠ ∅ → diff_links prev current ≠ [] →
      (main_model fetchOk current prev s e f).outcome = Outcome.raised ∧
      exitCodeOf (main_model fetchOk current prev s e f).outcome = 1) ∧
    ((main_model fetchOk current prev s e f).outcome =
      (main_model fetchOk current prev s true f).outcome) ∧
    (exitCodeOf (main_model fetchOk current prev s e f).outcome = 0 ∨
     exitCodeOf (main_model fetchOk current prev s e f).outcome = 1 ∨
     exitCodeOf (main_model fetchOk current prev s e f).outcome = 2) := by
  refine ⟨?_, ?_, ?_, ?_, ?_, ?_⟩
  · rw [main_model_outcome]
    split_ifs with hA hB <;> simp_all
  · intro hf hs
    rw [main_model_outcome]
    simp [hf, hs]
  · intro hf hp hd
    rw [main_model_outcome]
    simp [hf, hd, Finset.card_eq_zero, hp]
  · intro hf hs hp hd
    have hne : (diff_links prev current).isEmpty = false := by
      cases hh : diff_links prev current with
      | nil => exact absurd hh hd
      | cons a as => rfl
    rw [main_model_outcome]
    simp [hf, hs, hne, exitCodeOf]
  · rw [main_model_outcome, main_model_outcome]
  · rw [main_model_outcome]
    split_ifs <;> simp [exitCodeOf]

/-- Witness for the amended C6: the save-failure branch at a concrete
steady-state run. -/
theorem exit_codes_amended_witness :
    (main_model true ({1} : Finset ℕ) ({0} : Finset ℕ) false true
        false).outcome = Outcome.raised ∧
    exitCodeOf (main_model true ({1} : Finset ℕ) ({0} : Finset ℕ) false true
        false).outcome = 1 :=
  (exit_codes_amended true ({1} : Finset ℕ) ({0} : Finset ℕ) false true
      false).2.2.2.1 rfl rfl (by decide) (by decide)

/-- Claim C7: `load_state` never raises — the `except` handler maps every
failure (unreadable file, invalid JSON, non-dict JSON, unhashable data)
to the empty set, a missing file or missing `product_urls` key yields the
empty set, and a parsed `product_urls` list of strings yields exactly
that set of URLs. -/
theorem load_state_total_and_correct :
    (∀ f : FileRead, ∃ s, load_state f = Except.ok s) ∧
    load_state .absent = .ok ∅ ∧
    load_state .openFail = .ok ∅ ∧
    load_state .parseFail = .ok ∅ ∧
    (∀ fields : List (String × JVal),
      fields.reverse.lookup "product_urls" = none →
      load_state (.parsed (.jobj fields)) = .ok ∅) ∧
    (∀ (fields : List (String × JVal)) (urls : List String),
      dictGet fields "product_urls" (.jarr []) = .jarr (urls.map JVal.jstr) →
      load_state (.parsed (.jobj fields)) =
        .ok ((urls.map JVal.jstr).toFinset)) := by
  refine ⟨?_, by decide, by decide, by decide, ?_, ?_⟩
  · intro f
    unfold load_state
    by_cases h : f = .absent
    · exact ⟨∅, by rw [if_pos h]⟩
    · rw [if_neg h]
      cases hX : (do
        let j ← readAndParse f
        let fs ← getAttrDict j
        pySet (dictGet fs "product_urls" (.jarr [])) :
          Except PyErr (Finset JVal)) with
      | error e => exact ⟨∅, rfl⟩
      | ok s => exact ⟨s, rfl⟩
  · intro fields hnone
    unfold load_state
    rw [if_neg (by simp)]
    simp [readAndParse, getAttrDict, dictGet, hnone, pySet, Bind.bind,
      Except.bind]
  · intro fields urls hget
    unfold load_state
    rw [if_neg (by simp)]
    have hall : (urls.map JVal.jstr).all jHashable = true := by
      rw [List.all_eq_true]
      intro x hx
      rcases List.mem_map.mp hx with ⟨ss, hss, hrw⟩
      rw [← hrw]
      rfl
    simp [readAndParse, getAttrDict, hget, pySet, hall, Bind.bind, Except.bind]

/-- Witness for C7: concrete state files. -/
theorem load_state_witness :
    (∃ s, load_state (.parsed .null) = Except.ok s) ∧
    load_state (.parsed (.jobj [("saved_at", .jstr "t"),
        ("product_urls", .jarr [.jstr "https://games-island.eu/MtG-A-Foo"])])) =
      .ok ((["https://games-island.eu/MtG-A-Foo"].map JVal.jstr).toFinset) :=
  ⟨load_state_total_and_correct.1 (.parsed .null),
   load_state_total_and_correct.2.2.2.2.2
     [("saved_at", .jstr "t"),
      ("product_urls", .jarr [.jstr "https://games-island.eu/MtG-A-Foo"])]
     ["https://games-island.eu/MtG-A-Foo"] (by decide)⟩

/-- Claim C8: `diff_links old new` is exactly the set difference
`new − old` as a sorted duplicate-free list, and it is deterministic:
the same arguments give the same result. -/
theorem diff_links_spec {α : Type} [LinearOrder α] (old nw : Finset α) :
    (∀ x, x ∈ diff_links old nw ↔ (x ∈ nw ∧ x ∉ old)) ∧
    List.Sorted (fun a b => a ≤ b) (diff_links old nw) ∧
    (diff_links old nw).Nodup ∧
    diff_links old nw = diff_links old nw := by
  refine ⟨fun x => mem_diff_links old nw x, sorted_sortedList _, ?_, rfl⟩
  exact nodup_sortedList _ (nw \ old).nodup

/-- Claim C9: a non-bootstrap run whose extraction equals the previous
state performs no state write and no notification and exits 0. -/
theorem no_change_run {α : Type} [LinearOrder α] (prev : Finset α)
    (hprev : prev ≠ ∅) (s e f : Bool) :
    diff_links prev prev = [] ∧
    main_model true prev prev s e f = ⟨Outcome.exited 0, []⟩ := by
  have hd : diff_links prev prev = [] := by
    unfold diff_links
    rw [Finset.sdiff_self]
    rfl
  have hcard : ¬(prev.card = 0) := by
    simpa [Finset.card_eq_zero] using hprev
  exact ⟨hd, by simp [main_model, hd, hcard]⟩

/-- Witness for C9 at `prev = current = {1}`. -/
theorem no_change_run_witness :
    diff_links ({1} : Finset ℕ) ({1} : Finset ℕ) = [] ∧
    main_model true ({1} : Finset ℕ) ({1} : Finset ℕ) true true false =
      ⟨Outcome.exited 0, []⟩ :=
  no_change_run ({1} : Finset ℕ) (by decide) true true false

/-- Claim C10: the reject-marker check is case-sensitive while the accept
patterns are case-insensitive, so capitalizing the category segment flips
the classification: `/c/MtG-Foo` is non-product but `/C/MtG-Foo` is
product-like. -/
theorem case_sensitivity_flip :
    hasRejectMarker ("/c/MtG-Foo".toList) = true ∧
    hasRejectMarker ("/C/MtG-Foo".toList) = false ∧
    matchesAcceptPattern ("/c/MtG-Foo".toList) = true ∧
    matchesAcceptPattern ("/C/MtG-Foo".toList) = true ∧
    looks_like_product ("/c/MtG-Foo".toList) = false ∧
    looks_like_product ("/C/MtG-Foo".toList) = true := by decide

end Monitor

